import Mathlib

/-!
Verification development for the Projexa AI code-summary service
(`src/main.py`).  The definitions below are a shallow embedding of the
parts of the program the properties talk about: the streaming sanitizer
`StreamCleaner.clean` (fence suppression, markdown rewrites, word budget),
the request option clamping `clamp_options`, the payload-size check of the
`analyze` endpoint, and the streaming generator (branding line and in-band
error marker).  Strings are modelled as `List Char`; Python's `re.sub`
rewrites are modelled as executable scans with the same leftmost-match,
advance-past-match semantics; Python's whitespace classes are modelled by
the six ASCII whitespace characters.  Wall-clock behaviour (the stream
timeout) is not modelled.
-/

/-- ASCII whitespace, modelling Python's `\s` / `str.split()` whitespace
(space, tab, newline, carriage return, vertical tab, form feed). -/
def isSpaceChar (c : Char) : Bool :=
  c == ' ' || c == '\t' || c == '\n' || c == '\r' ||
  c == Char.ofNat 11 || c == Char.ofNat 12

/-- The backquote character, the unit of the fence token. -/
def fenceChar : Char := Char.ofNat 96

/-- `_CODE_FENCE_TOK`: the 3-character code-fence marker. -/
def fenceTok : List Char := [fenceChar, fenceChar, fenceChar]

/-- Does the list begin with the 3-character fence token?  This is
`text.startswith(_CODE_FENCE_TOK, i)` at the head position. -/
def startsFence : List Char → Bool
  | x :: y :: z :: _ => x == fenceChar && y == fenceChar && z == fenceChar
  | _ => false

/-- Does the fence token occur (wholly) anywhere in the list? -/
def containsFence : List Char → Bool
  | [] => false
  | a :: rest => startsFence (a :: rest) || containsFence rest

/-- The fence-handling loop of `StreamCleaner.clean` (`main.py` lines
162-172): scan character by character; each occurrence of the 3-character
token toggles the fence flag and is skipped; characters outside a fence
are kept in order, characters inside a fence are dropped.  Returns the
kept characters and the final fence flag. -/
def fenceScan : Bool → List Char → List Char × Bool
  | f, a :: b :: c :: rest =>
    if a == fenceChar && b == fenceChar && c == fenceChar then
      fenceScan (!f) rest
    else
      let p := fenceScan f (b :: c :: rest)
      (if f then p.1 else a :: p.1, p.2)
  | f, l => (if f then [] else l, f)

/-- Attempt to match `_LINKS_RE` = `\[([^\]]+)\]\((?:[^)]+)\)` at the head
of the list.  On success returns the label (capture group 1) and the
remainder after the match.  Both character classes are matched greedily;
since each excludes its closing bracket the match is deterministic. -/
def matchLink (l : List Char) : Option (List Char × List Char) :=
  match l with
  | [] => none
  | c0 :: rest =>
    if c0 ≠ '[' then none
    else
      let label := rest.takeWhile (fun x => x ≠ ']')
      if label = [] then none
      else
        match rest.dropWhile (fun x => x ≠ ']') with
        | [] => none
        | _ :: r1 =>
          match r1 with
          | [] => none
          | c2 :: r2 =>
            if c2 ≠ '(' then none
            else
              let url := r2.takeWhile (fun x => x ≠ ')')
              if url = [] then none
              else
                match r2.dropWhile (fun x => x ≠ ')') with
                | [] => none
                | _ :: r3 => some (label, r3)

/-- `_LINKS_RE.sub(r"\1", text)`: scan left to right, replacing each link
by its label and continuing after the match.  Fuelled (each step consumes
at least one character, so fuel = length suffices). -/
def linksSubF : Nat → List Char → List Char
  | 0, l => l
  | _ + 1, [] => []
  | fuel + 1, c :: rest =>
    match matchLink (c :: rest) with
    | some (label, r3) => label ++ linksSubF fuel r3
    | none => c :: linksSubF fuel rest

def linksSub (l : List Char) : List Char := linksSubF l.length l

/-- `_HEADING_RE.sub("", text)` with `_HEADING_RE` = `^#{1,6}\s*` in
MULTILINE mode.  The Bool argument tracks whether the current position is
at a line start (position 0 or preceded by a newline).  At a line start a
run of 1-6 `#` (the head `#` plus at most 5 more) and the following
greedy whitespace run are deleted; scanning resumes after the match. -/
def headingSubF : Nat → Bool → List Char → List Char
  | 0, _, l => l
  | _ + 1, _, [] => []
  | fuel + 1, bol, c :: rest =>
    if bol && (c == '#') then
      let k := min (rest.takeWhile (fun x => x == '#')).length 5
      let after := rest.drop k
      let ws := after.takeWhile isSpaceChar
      headingSubF fuel (ws.getLast? == some '\n') (after.dropWhile isSpaceChar)
    else
      c :: headingSubF fuel (c == '\n') rest

def headingSub (bol : Bool) (l : List Char) : List Char := headingSubF l.length bol l

/-- Attempt to match `_LIST_RE` = `^\s*([-*+]|\d+\.)\s+` at a line-start
position: greedy leading whitespace, a list marker (`-`, `*`, `+`, or
digits followed by `.`), then at least one whitespace character.  Returns
the remainder after the match and whether the new position is again at a
line start (the last consumed character was a newline). -/
def matchList (l : List Char) : Option (List Char × Bool) :=
  let r1 := l.dropWhile isSpaceChar
  let afterMarker : Option (List Char) :=
    match r1 with
    | [] => none
    | c :: rest =>
      if c = '-' ∨ c = '*' ∨ c = '+' then some rest
      else
        let ds := (c :: rest).takeWhile (fun x => x.isDigit)
        if ds = [] then none
        else
          match (c :: rest).dropWhile (fun x => x.isDigit) with
          | [] => none
          | d :: rest2 => if d = '.' then some rest2 else none
  match afterMarker with
  | none => none
  | some r2 =>
    let ws2 := r2.takeWhile isSpaceChar
    if ws2 = [] then none
    else some (r2.dropWhile isSpaceChar, ws2.getLast? == some '\n')

/-- `_LIST_RE.sub("", text)` in MULTILINE mode, with line-start tracking
as in `headingSubF`. -/
def listSubF : Nat → Bool → List Char → List Char
  | 0, _, l => l
  | _ + 1, _, [] => []
  | fuel + 1, bol, c :: rest =>
    if bol then
      match matchList (c :: rest) with
      | some (r2, bol2) => listSubF fuel bol2 r2
      | none => c :: listSubF fuel (c == '\n') rest
    else
      c :: listSubF fuel (c == '\n') rest

def listSub (bol : Bool) (l : List Char) : List Char := listSubF l.length bol l

/-- The three markdown rewrites of `clean`, in source order: links, then
headings, then list markers (`main.py` lines 173-176). -/
def rewriteText (l : List Char) : List Char :=
  listSub true (headingSub true (linksSub l))

/-- `str.split()` (no separator): split on runs of whitespace, discarding
empty tokens.  Structural accumulator formulation. -/
def wordsAux (acc : List Char) : List Char → List (List Char)
  | [] => if acc = [] then [] else [acc.reverse]
  | c :: rest =>
    if isSpaceChar c then
      if acc = [] then wordsAux [] rest
      else acc.reverse :: wordsAux [] rest
    else
      wordsAux (c :: acc) rest

def splitWords (l : List Char) : List (List Char) := wordsAux [] l

/-- Number of whitespace-delimited words in a string. -/
def wordCount (l : List Char) : Nat := (splitWords l).length

/-- `" ".join(words)`. -/
def joinWords : List (List Char) → List Char
  | [] => []
  | w :: ws =>
    match ws with
    | [] => w
    | _ :: _ => w ++ ' ' :: joinWords ws

/-- `MAX_WORDS_OUT` (default value of `PROJEXA_MAX_WORDS_OUT`). -/
def MAX_WORDS_OUT : Int := 500

/-- The mutable state of a `StreamCleaner` instance. -/
structure CleanerState where
  in_fence : Bool
  word_budget : Int
  done : Bool
deriving DecidableEq, Repr

/-- `StreamCleaner.__init__`, with the configured word cap. -/
def initState (cap : Int) : CleanerState :=
  { in_fence := false, word_budget := cap, done := false }

/-- `StreamCleaner.clean` (`main.py` lines 158-188): returns the emitted
string and the successor state. -/
def clean (s : CleanerState) (text : List Char) : List Char × CleanerState :=
  if text = [] ∨ s.done = true then ([], s)
  else
    let p := fenceScan s.in_fence text
    let t3 := rewriteText p.1
    let s1 : CleanerState := { s with in_fence := p.2 }
    if s.word_budget ≤ 0 then ([], { s1 with done := true })
    else
      let words := splitWords t3
      if words = [] then ([], s1)
      else if (words.length : Int) > s.word_budget then
        let kept := words.take s.word_budget.toNat
        (joinWords kept,
         { s1 with word_budget := s.word_budget - (kept.length : Int), done := true })
      else
        (joinWords words ++ [' '],
         { s1 with word_budget := s.word_budget - (words.length : Int), done := false })

/-- Feed a sequence of fragments to a cleaner in order, collecting every
returned string. -/
def cleanAll : CleanerState → List (List Char) → List (List Char) × CleanerState
  | s, [] => ([], s)
  | s, t :: ts =>
    let p := clean s t
    let q := cleanAll p.2 ts
    (p.1 :: q.1, q.2)

/-- `MAX_BYTES` (default value of `PROJEXA_MAX_BYTES`, 512 KiB). -/
def MAX_BYTES : Nat := 512 * 1024

/-- `len(raw.encode("utf-8", errors="ignore"))`: the UTF-8 byte length of
a string. -/
def byteSize (l : List Char) : Nat := (l.map Char.utf8Size).sum

/-- The f-string detail of the 413 error raised by `analyze`. -/
def detailString (n : Nat) : String :=
  "payload too large: " ++ toString n ++ " bytes > limit " ++ toString MAX_BYTES ++ " bytes"

/-- The branding line emitted first by the generator, with the default
`PROJEXA_DISPLAY_NAME` of "projexa". -/
def brandingLine : List Char := "MODEL: projexa\n\n".toList

/-- The in-band error marker emitted in the `except` branch of the
generator: a leading newline, the bracketed tag, a space, and the error
message (`main.py` line 255). -/
def streamErrMarker (m : List Char) : List Char :=
  "\n[STREAM ERROR] ".toList ++ m

/-- The `for chunk in stream` loop of the generator: clean each token,
yield the cleaned text when non-empty, and break once the cleaner is
done.  Returns the yielded strings and whether the loop broke early. -/
def genLoop : CleanerState → List (List Char) → List (List Char) × Bool
  | _, [] => ([], false)
  | s, t :: ts =>
    let p := clean s t
    let outs : List (List Char) := if p.1 = [] then [] else [p.1]
    if p.2.done then (outs, true)
    else
      let q := genLoop p.2 ts
      (outs ++ q.1, q.2)

/-- The full emission of `analyze.generator`: the branding line, then the
loop's yields; if the generation client raises an error after delivering
`chunks` (and the loop did not already break), the in-band error marker is
emitted last.  The wall-clock timeout branch is not modelled. -/
def generatorOutput (s : CleanerState) (chunks : List (List Char))
    (err : Option (List Char)) : List (List Char) :=
  let g := genLoop s chunks
  brandingLine ::
    (g.1 ++ (match err with
             | some m => if g.2 then [] else [streamErrMarker m]
             | none => []))

/-- Result of the `analyze` endpoint: either an HTTP error raised before
any streaming, or the streamed body. -/
inductive AnalyzeOutcome where
  | rejected (status : Nat) (detail : String)
  | streamed (body : List (List Char))
deriving DecidableEq

/-- The `analyze` handler (`main.py` lines 212-261): stringified payload
`data`; if its UTF-8 byte size exceeds `MAX_BYTES` an HTTP 413 is raised
before the generation call and before any `StreamCleaner` is created;
otherwise the generator runs with a fresh cleaner.  `chunks`/`err`
describe the backend stream's behaviour. -/
def analyze (data : List Char) (chunks : List (List Char))
    (err : Option (List Char)) : AnalyzeOutcome :=
  if byteSize data > MAX_BYTES then
    .rejected 413 (detailString (byteSize data))
  else
    .streamed (generatorOutput (initState MAX_WORDS_OUT) chunks err)

/-- Incoming `options` mapping, restricted to the four generation
parameters (each absent or present); numeric generation parameters are
modelled as rationals, `num_predict` as an integer. -/
structure OptionsIn where
  temperature : Option ℚ
  top_p : Option ℚ
  repeat_penalty : Option ℚ
  num_predict : Option Int

/-- The validated options mapping: all four parameters present. -/
structure OptionsOut where
  temperature : ℚ
  top_p : ℚ
  repeat_penalty : ℚ
  num_predict : Int

/-- `AnalyzeRequest.clamp_options` (`main.py` lines 84-95): substitute the
`DEFAULT_OPTIONS` value for each absent parameter and clamp `num_predict`
to at most 1024. -/
def clamp_options (v : OptionsIn) : OptionsOut :=
  { temperature := v.temperature.getD (0.2 : ℚ)
    top_p := v.top_p.getD (0.9 : ℚ)
    repeat_penalty := v.repeat_penalty.getD (1.05 : ℚ)
    num_predict := min (v.num_predict.getD 512) 1024 }

/-- A character that can take part in a markdown marker recognized by the
three rewrites: link open bracket, heading hash, list bullets, digits. -/
def isMarkerChar (c : Char) : Bool :=
  c == '[' || c == '#' || c == '-' || c == '*' || c == '+' || c.isDigit

/-- The worked-scenario input fragment of the specification. -/
def c4frag : List Char :=
  "[click here](http://x.com) # Title\n- item one\nhello world".toList

/-! ## Concrete evaluations and small claims -/

/-- C4 (counterexample): on the worked-scenario fragment with word budget
5, the cleaner does NOT return "click here Title item one": the heading
marker sits mid-line, so the `^`-anchored heading rewrite leaves the `#`
in place and it is counted as a word. -/
theorem c4_counterexample :
    (clean (initState 5) c4frag).1 ≠ ("click here Title item one".toList) := by
  decide

/-- C4 (amended): a fresh cleaner with word budget 5 applied to the
worked-scenario fragment returns exactly "click here # Title item": the
link is replaced by its label; the mid-line `# ` is NOT stripped (heading
stripping only applies at line starts); the list marker `- ` is stripped;
output is truncated to 5 words, `done` is set, and no trailing space is
appended. -/
theorem c4_amended :
    clean (initState 5) c4frag =
      ("click here # Title item".toList,
       { in_fence := false, word_budget := 0, done := true }) := by
  decide

/-- C5 (counterexample): with remaining budget 1, the single fragment
"hello" has exactly budget-many words; the code does not truncate, leaves
`done` false, and DOES append a trailing space, contradicting the claim
that exact consumption suppresses the trailing space. -/
theorem c5_counterexample :
    clean (initState 1) ("hello".toList) =
      ("hello ".toList,
       { in_fence := false, word_budget := 0, done := false }) := by
  decide

/-- C6: a fence marker split across two fragments ("\x60" then "\x60\x60")
is not detected: `in_fence` is never toggled and the marker characters
pass through to the output (each with the trailing space of a
non-terminal fragment). -/
theorem c6_split_marker :
    cleanAll (initState MAX_WORDS_OUT) [[fenceChar], [fenceChar, fenceChar]] =
      ([[fenceChar, ' '], [fenceChar, fenceChar, ' ']],
       { in_fence := false, word_budget := 498, done := false }) := by
  decide

/-- C7 (counterexample): the combined link/heading/list rewrite is not
idempotent: stripping the list marker of "- # hi" exposes a heading
marker at line start, which a second application then strips. -/
theorem c7_counterexample :
    rewriteText (rewriteText ("- # hi".toList)) ≠ rewriteText ("- # hi".toList) := by
  decide

/-- C9 (counterexample): after a generation-client error the generator
emits "\n[STREAM ERROR] <message>" with NO trailing newline, so the
stream is not the branding line followed by "\n[STREAM ERROR] boom\n". -/
theorem c9_counterexample :
    generatorOutput (initState MAX_WORDS_OUT) [] (some ("boom".toList)) ≠
      [brandingLine, ("\n[STREAM ERROR] boom\n".toList)] := by
  decide

/-- C8: the validated options mapping carries all four generation
parameters, substituting the `DEFAULT_OPTIONS` value for each absent one,
and `num_predict` is clamped to at most 1024 (the supplied value is
replaced by `min supplied 1024`). -/
theorem c8_options_validation (v : OptionsIn) :
    (v.temperature = none → (clamp_options v).temperature = 0.2) ∧
    (v.top_p = none → (clamp_options v).top_p = 0.9) ∧
    (v.repeat_penalty = none → (clamp_options v).repeat_penalty = 1.05) ∧
    (v.num_predict = none → (clamp_options v).num_predict = 512) ∧
    (clamp_options v).num_predict ≤ 1024 ∧
    (∀ n : Int, v.num_predict = some n → (clamp_options v).num_predict = min n 1024) := by
  refine ⟨?_, ?_, ?_, ?_, ?_, ?_⟩
  · intro h; simp [clamp_options, h]
  · intro h; simp [clamp_options, h]
  · intro h; simp [clamp_options, h]
  · intro h; simp [clamp_options, h]
  · exact min_le_right _ _
  · intro n h; simp [clamp_options, h]

/-- Witness for C8: a caller supplying only `num_predict = 5000` gets the
default temperature and a `num_predict` clamped to 1024. -/
theorem c8_options_validation_witness :
    (clamp_options ⟨none, none, none, some 5000⟩).temperature = 0.2 ∧
    (clamp_options ⟨none, none, none, some 5000⟩).num_predict = min 5000 1024 :=
  ⟨(c8_options_validation ⟨none, none, none, some 5000⟩).1 rfl,
   (c8_options_validation ⟨none, none, none, some 5000⟩).2.2.2.2.2 5000 rfl⟩

/-! ## C3: oversized-payload rejection -/

/-- C3: a stringified payload whose UTF-8 byte size exceeds `MAX_BYTES`
makes `analyze` fail with HTTP 413, with a detail string mentioning both
the observed size and the limit; the outcome is the same whatever the
backend stream would have produced (no generation call is made and no
cleaner is consumed before the failure). -/
theorem c3_payload_too_large (data : List Char) (h : byteSize data > MAX_BYTES) :
    (∀ chunks err, analyze data chunks err =
        .rejected 413 (detailString (byteSize data))) ∧
    (∃ p m q : String, detailString (byteSize data) =
        p ++ toString (byteSize data) ++ m ++ toString MAX_BYTES ++ q) := by
  constructor
  · intro chunks err
    simp [analyze, h]
  · exact ⟨"payload too large: ", " bytes > limit ", " bytes", rfl⟩

/-- Witness for C3: a payload of `MAX_BYTES + 1` ASCII characters (one
byte each) is rejected whatever the backend would have streamed. -/
theorem c3_payload_too_large_witness :
    byteSize (List.replicate (MAX_BYTES + 1) 'a') > MAX_BYTES ∧
    analyze (List.replicate (MAX_BYTES + 1) 'a') [] none =
      .rejected 413 (detailString (byteSize (List.replicate (MAX_BYTES + 1) 'a'))) := by
  have h : byteSize (List.replicate (MAX_BYTES + 1) 'a') > MAX_BYTES := by
    have : byteSize (List.replicate (MAX_BYTES + 1) 'a') = MAX_BYTES + 1 := by
      simp [byteSize, List.map_replicate, List.sum_const_nat]
      rfl
    omega
  exact ⟨h, (c3_payload_too_large _ h).1 [] none⟩

/-! ## C9: in-band error marker -/

/-- C9 (amended): when the generation client errors after delivering some
chunks (and the cleaner did not already finish the stream), the generator
emits the branding line first, then its sanitized yields, and finally the
inline marker "\n[STREAM ERROR] <message>" — a leading newline, the
bracketed tag, and the error message, with NO trailing newline — and then
stops; the error path is a total function of the delivered stream (no
crash). -/
theorem c9_amended_error_marker (s : CleanerState) (chunks : List (List Char))
    (m : List Char) (h : (genLoop s chunks).2 = false) :
    generatorOutput s chunks (some m) =
      brandingLine :: ((genLoop s chunks).1 ++ [streamErrMarker m]) ∧
    (generatorOutput s chunks (some m)).head? = some brandingLine ∧
    streamErrMarker m = '\n' :: ("[STREAM ERROR] ".toList ++ m) := by
  refine ⟨?_, ?_, rfl⟩
  · simp [generatorOutput, h]
  · simp [generatorOutput]

/-- Witness for C9 (amended): a failure before any chunk is delivered. -/
theorem c9_amended_error_marker_witness :
    (genLoop (initState MAX_WORDS_OUT) []).2 = false ∧
    (generatorOutput (initState MAX_WORDS_OUT) [] (some ("boom".toList)) =
      brandingLine ::
        ((genLoop (initState MAX_WORDS_OUT) []).1 ++ [streamErrMarker ("boom".toList)]) ∧
     (generatorOutput (initState MAX_WORDS_OUT) [] (some ("boom".toList))).head? =
        some brandingLine ∧
     streamErrMarker ("boom".toList) =
        '\n' :: ("[STREAM ERROR] ".toList ++ "boom".toList)) :=
  ⟨rfl, c9_amended_error_marker (initState MAX_WORDS_OUT) [] ("boom".toList) rfl⟩

/-! ## C7: the rewrites on marker-free text -/

lemma linksSubF_id (fuel : Nat) (l : List Char) (h : ∀ c ∈ l, c ≠ '[') :
    linksSubF fuel l = l := by
  induction fuel generalizing l with
  | zero => rfl
  | succ fuel ih =>
    cases l with
    | nil => rfl
    | cons c rest =>
      have hc : c ≠ '[' := h c (List.mem_cons_self c rest)
      have hm : matchLink (c :: rest) = none := by
        simp [matchLink, hc]
      simp [linksSubF, hm]
      exact ih rest (fun x hx => h x (List.mem_cons_of_mem c hx))

lemma headingSubF_id (fuel : Nat) (bol : Bool) (l : List Char)
    (h : ∀ c ∈ l, c ≠ '#') : headingSubF fuel bol l = l := by
  induction fuel generalizing bol l with
  | zero => rfl
  | succ fuel ih =>
    cases l with
    | nil => rfl
    | cons c rest =>
      have hc : (c == '#') = false := by
        simp [h c (List.mem_cons_self c rest)]
      simp [headingSubF, hc]
      exact ih _ rest (fun x hx => h x (List.mem_cons_of_mem c hx))

lemma matchList_eq_none (l : List Char) (h : ∀ c ∈ l, isMarkerChar c = false) :
    matchList l = none := by
  unfold matchList
  cases hr : l.dropWhile isSpaceChar with
  | nil => simp
  | cons c rest =>
    have hcl : c ∈ l := List.dropWhile_subset isSpaceChar (hr ▸ List.mem_cons_self c rest)
    have h1 := h c hcl
    simp only [isMarkerChar, Bool.or_eq_false_iff, beq_eq_false_iff_ne, ne_eq] at h1
    obtain ⟨⟨⟨⟨⟨-, -⟩, hminus⟩, hstar⟩, hplus⟩, hdig⟩ := h1
    have hmark : ¬(c = '-' ∨ c = '*' ∨ c = '+') := by
      intro hor
      rcases hor with h' | h' | h' <;> simp_all
    have hds : (c :: rest).takeWhile (fun x => x.isDigit) = [] := by
      simp [List.takeWhile_cons, hdig]
    simp [hmark, hds]

lemma listSubF_id (fuel : Nat) (bol : Bool) (l : List Char)
    (h : ∀ c ∈ l, isMarkerChar c = false) : listSubF fuel bol l = l := by
  induction fuel generalizing bol l with
  | zero => rfl
  | succ fuel ih =>
    cases l with
    | nil => rfl
    | cons c rest =>
      have hm : matchList (c :: rest) = none := matchList_eq_none _ h
      have ih' := ih (c == '\n') rest (fun x hx => h x (List.mem_cons_of_mem c hx))
      cases bol with
      | true => simp [listSubF, hm, ih']
      | false => simp [listSubF, ih']

/-- C7 (amended): the combined link/heading/list rewrite is NOT
idempotent in general (a rewrite can expose a fresh marker at a line
start, see the counterexample); it is idempotent — indeed the identity —
on text containing none of the marker-forming characters (link bracket,
hash, bullets, digits). -/
theorem c7_amended_idempotent_on_marker_free (l : List Char)
    (h : ∀ c ∈ l, isMarkerChar c = false) :
    rewriteText l = l ∧ rewriteText (rewriteText l) = rewriteText l := by
  have h1 : ∀ c ∈ l, c ≠ '[' := by
    intro c hc heq
    have := h c hc
    rw [heq] at this
    simp [isMarkerChar] at this
  have h2 : ∀ c ∈ l, c ≠ '#' := by
    intro c hc heq
    have := h c hc
    rw [heq] at this
    simp [isMarkerChar] at this
  have e : rewriteText l = l := by
    unfold rewriteText linksSub headingSub listSub
    rw [linksSubF_id _ _ h1, headingSubF_id _ _ _ h2, listSubF_id _ _ _ h]
  exact ⟨e, by rw [e, e]⟩

/-- Witness for C7 (amended): plain prose is left unchanged by one and by
two applications of the rewrite. -/
theorem c7_amended_idempotent_on_marker_free_witness :
    rewriteText ("hello world".toList) = "hello world".toList ∧
    rewriteText (rewriteText ("hello world".toList)) =
      rewriteText ("hello world".toList) :=
  c7_amended_idempotent_on_marker_free ("hello world".toList) (by decide)

/-! ## C2: fence suppression -/

lemma startsFence_cons_of_ne (a : Char) (l : List Char) (ha : a ≠ fenceChar) :
    startsFence (a :: l) = false := by
  cases l with
  | nil => rfl
  | cons y l' =>
    cases l' with
    | nil => rfl
    | cons z l'' => simp [startsFence, ha]

lemma startsFence_cons₂_of_ne (a x : Char) (l : List Char) (hx : x ≠ fenceChar) :
    startsFence (a :: x :: l) = false := by
  cases l with
  | nil => rfl
  | cons z l' => simp [startsFence, hx]

/-- One scan step at a position where no fence token starts: the head is
emitted (outside a fence) or dropped (inside), and scanning continues at
the next character. -/
lemma fenceScan_cons_not_starts (f : Bool) (a : Char) (l : List Char)
    (h : startsFence (a :: l) = false) :
    fenceScan f (a :: l) =
      ((if f then (fenceScan f l).1 else a :: (fenceScan f l).1), (fenceScan f l).2) := by
  cases l with
  | nil => cases f <;> simp [fenceScan]
  | cons y l' =>
    cases l' with
    | nil => cases f <;> simp [fenceScan]
    | cons z rest =>
      simp only [startsFence] at h
      simp [fenceScan, h]

/-- A fence token at the head toggles the flag and emits nothing. -/
lemma fenceScan_tok (f : Bool) (rest : List Char) :
    fenceScan f (fenceTok ++ rest) = fenceScan (!f) rest := by
  simp [fenceTok, fenceScan]

/-- Characters scanned while inside a fence are dropped: a fenced segment
containing no fence token and not ending in a backquote contributes
nothing, for any continuation. -/
lemma fenceScan_inFence_append (b : List Char) (rest : List Char)
    (h1 : containsFence b = false) (h2 : b.getLast? ≠ some fenceChar) :
    fenceScan true (b ++ rest) = fenceScan true rest := by
  induction b with
  | nil => simp
  | cons a b' ih =>
    have hsplit : startsFence (a :: b') = false ∧ containsFence b' = false := by
      simpa [containsFence, Bool.or_eq_false_iff] using h1
    have hsf : startsFence (a :: (b' ++ rest)) = false := by
      cases b' with
      | nil =>
        have ha : a ≠ fenceChar := by simpa using h2
        simpa using startsFence_cons_of_ne a rest ha
      | cons x b'' =>
        cases b'' with
        | nil =>
          have hx : x ≠ fenceChar := by simpa using h2
          simpa using startsFence_cons₂_of_ne a x rest hx
        | cons y b''' =>
          have : startsFence (a :: x :: y :: b''') = false := hsplit.1
          simp only [startsFence] at this ⊢
          simpa using this
    have h2' : b'.getLast? ≠ some fenceChar := by
      cases b' with
      | nil => simp
      | cons x bs =>
        rw [← List.getLast?_cons_cons (a := a)]
        exact h2
    rw [List.cons_append, fenceScan_cons_not_starts true a (b' ++ rest) hsf]
    simp [ih hsplit.2 h2']

/-- A whole fragment scanned inside a fence with no fence token emits
nothing and leaves the flag set. -/
lemma fenceScan_inFence_noTok (b : List Char) (h1 : containsFence b = false) :
    fenceScan true b = ([], true) := by
  induction b with
  | nil => simp [fenceScan]
  | cons a b' ih =>
    have hsplit : startsFence (a :: b') = false ∧ containsFence b' = false := by
      simpa [containsFence, Bool.or_eq_false_iff] using h1
    rw [fenceScan_cons_not_starts true a b' hsplit.1]
    simp [ih hsplit.2]

/-- Characters scanned outside a fence before any token are kept
verbatim, for any continuation. -/
lemma fenceScan_outside_keep (a : List Char) (rest : List Char)
    (h1 : containsFence a = false) (h2 : a.getLast? ≠ some fenceChar) :
    fenceScan false (a ++ rest) =
      (a ++ (fenceScan false rest).1, (fenceScan false rest).2) := by
  induction a with
  | nil => simp
  | cons x a' ih =>
    have hsplit : startsFence (x :: a') = false ∧ containsFence a' = false := by
      simpa [containsFence, Bool.or_eq_false_iff] using h1
    have hsf : startsFence (x :: (a' ++ rest)) = false := by
      cases a' with
      | nil =>
        have hx : x ≠ fenceChar := by simpa using h2
        simpa using startsFence_cons_of_ne x rest hx
      | cons u a'' =>
        cases a'' with
        | nil =>
          have hu : u ≠ fenceChar := by simpa using h2
          simpa using startsFence_cons₂_of_ne x u rest hu
        | cons v a''' =>
          have : startsFence (x :: u :: v :: a''') = false := hsplit.1
          simp only [startsFence] at this ⊢
          simpa using this
    have h2' : a'.getLast? ≠ some fenceChar := by
      cases a' with
      | nil => simp
      | cons u as =>
        rw [← List.getLast?_cons_cons (a := x)]
        exact h2
    rw [List.cons_append, fenceScan_cons_not_starts false x (a' ++ rest) hsf]
    simp [ih hsplit.2 h2']

/-- A fragment delivered to `clean` entirely inside a fence (no fence
token, `in_fence` carried in from the previous call) contributes nothing
to the returned string, and the fence state stays set. -/
lemma clean_mid_fence (s : CleanerState) (b : List Char)
    (hf : s.in_fence = true) (hb : containsFence b = false) :
    (clean s b).1 = [] ∧ (clean s b).2.in_fence = true := by
  by_cases hd : s.done = true
  · simp [clean, hd, hf]
  · rcases eq_or_ne b [] with hbe | hbe
    · subst hbe
      simp [clean, hf]
    · have hscan : fenceScan s.in_fence b = ([], true) := by
        rw [hf]
        exact fenceScan_inFence_noTok b hb
      have ht : rewriteText ([] : List Char) = [] := rfl
      have hw : splitWords ([] : List Char) = [] := rfl
      simp only [clean, hbe, hd, false_or, if_false, hscan, ht, hw]
      split_ifs <;> simp_all

/-- Scan of an opening fragment `a ++ tok ++ b`: the text before the open
token is kept verbatim, the marker and the fenced tail are dropped, and
the flag is left set for the following fragments. -/
lemma fenceScan_open_frag (a b₁ : List Char) (ha1 : containsFence a = false)
    (ha2 : a.getLast? ≠ some fenceChar) (hb1 : containsFence b₁ = false) :
    fenceScan false (a ++ (fenceTok ++ b₁)) = (a, true) := by
  rw [fenceScan_outside_keep a _ ha1 ha2, fenceScan_tok, Bool.not_false,
      fenceScan_inFence_noTok b₁ hb1]
  simp

/-- Scan of a closing fragment `b ++ tok ++ c` entered with the flag set:
the fenced head and the marker are dropped and `c` is scanned outside the
fence. -/
lemma fenceScan_close_frag (b₃ c : List Char) (hb3 : containsFence b₃ = false)
    (hg : b₃.getLast? ≠ some fenceChar) :
    fenceScan true (b₃ ++ (fenceTok ++ c)) = fenceScan false c := by
  rw [fenceScan_inFence_append b₃ _ hb3 hg, fenceScan_tok, Bool.not_true]

/-! ## Word accounting -/

lemma wordsAux_nonspace (l : List Char) :
    ∀ (acc : List Char), (∀ c ∈ acc, isSpaceChar c = false) →
    ∀ w ∈ wordsAux acc l, w ≠ [] ∧ ∀ c ∈ w, isSpaceChar c = false := by
  induction l with
  | nil =>
    intro acc hacc w hw
    unfold wordsAux at hw
    split at hw
    · simp at hw
    · next hne =>
      simp only [List.mem_singleton] at hw
      subst hw
      refine ⟨by simpa using hne, ?_⟩
      intro c hc
      exact hacc c (List.mem_reverse.mp hc)
  | cons c rest ih =>
    intro acc hacc w hw
    unfold wordsAux at hw
    by_cases hs : isSpaceChar c = true
    · rw [if_pos hs] at hw
      split at hw
      · exact ih [] (by simp) w hw
      · next hne =>
        rcases List.mem_cons.mp hw with h | h
        · subst h
          refine ⟨by simpa using hne, ?_⟩
          intro x hx
          exact hacc x (List.mem_reverse.mp hx)
        · exact ih [] (by simp) w h
    · rw [if_neg hs] at hw
      refine ih (c :: acc) ?_ w hw
      intro x hx
      rcases List.mem_cons.mp hx with h | h
      · subst h
        simpa using hs
      · exact hacc x h

lemma splitWords_mem (l : List Char) :
    ∀ w ∈ splitWords l, w ≠ [] ∧ ∀ c ∈ w, isSpaceChar c = false :=
  wordsAux_nonspace l [] (by simp)

lemma joinWords_singleton (w : List Char) : joinWords [w] = w := rfl

lemma joinWords_cons_cons (w w2 : List Char) (ws : List (List Char)) :
    joinWords (w :: w2 :: ws) = w ++ ' ' :: joinWords (w2 :: ws) := rfl

lemma wordsAux_word (w : List Char) :
    ∀ (acc rest : List Char), (∀ c ∈ w, isSpaceChar c = false) →
    wordsAux acc (w ++ rest) = wordsAux (w.reverse ++ acc) rest := by
  induction w with
  | nil => simp
  | cons c w' ih =>
    intro acc rest hw
    have hc : isSpaceChar c = false := hw c (List.mem_cons_self c w')
    have step : wordsAux acc ((c :: w') ++ rest) = wordsAux (c :: acc) (w' ++ rest) := by
      simp [wordsAux, hc]
    rw [step, ih (c :: acc) rest (fun x hx => hw x (List.mem_cons_of_mem c hx))]
    have : (c :: w').reverse ++ acc = w'.reverse ++ (c :: acc) := by
      simp [List.append_assoc]
    rw [this]

lemma isSpaceChar_space : isSpaceChar ' ' = true := rfl

lemma splitWords_join (ws : List (List Char)) (sp : List Char)
    (hws : ∀ w ∈ ws, w ≠ [] ∧ ∀ c ∈ w, isSpaceChar c = false)
    (hsp : sp = [] ∨ sp = [' ']) :
    splitWords (joinWords ws ++ sp) = ws := by
  induction ws with
  | nil => rcases hsp with h | h <;> subst h <;> rfl
  | cons w ws' ih =>
    have hw := hws w (List.mem_cons_self w ws')
    cases ws' with
    | nil =>
      rw [joinWords_singleton]
      unfold splitWords
      rw [wordsAux_word w [] sp hw.2]
      rcases hsp with h | h <;> subst h
      · simp [wordsAux, hw.1]
      · simp [wordsAux, hw.1, isSpaceChar_space]
    | cons w2 ws'' =>
      rw [joinWords_cons_cons]
      unfold splitWords at ih ⊢
      have hassoc :
          (w ++ ' ' :: joinWords (w2 :: ws'')) ++ sp =
            w ++ (' ' :: (joinWords (w2 :: ws'') ++ sp)) := by
        simp [List.append_assoc]
      rw [hassoc, wordsAux_word w _ _ hw.2]
      have hne : w.reverse ++ [] ≠ [] := by simpa using hw.1
      have hstep :
          wordsAux (w.reverse ++ []) (' ' :: (joinWords (w2 :: ws'') ++ sp)) =
            (w.reverse ++ []).reverse :: wordsAux [] (joinWords (w2 :: ws'') ++ sp) := by
      -- one space step: the accumulated word is flushed
        simp [wordsAux, hne, isSpaceChar_space, hw.1]
      rw [hstep]
      simp only [List.append_nil, List.reverse_reverse]
      exact congrArg (w :: ·) (ih (fun x hx => hws x (List.mem_cons_of_mem w hx)))

lemma wordCount_nil : wordCount ([] : List Char) = 0 := rfl

/-- One call to `clean` keeps the budget non-negative and decrements it by
exactly the number of words in the returned string. -/
lemma clean_step (s : CleanerState) (t : List Char) (hb : 0 ≤ s.word_budget) :
    0 ≤ (clean s t).2.word_budget ∧
    (clean s t).2.word_budget + (wordCount (clean s t).1 : Int) = s.word_budget := by
  unfold clean
  dsimp only
  split_ifs with h1 h2 h3 h4
  · refine ⟨hb, ?_⟩
    simp [wordCount_nil]
  · refine ⟨hb, ?_⟩
    simp [wordCount_nil]
  · refine ⟨hb, ?_⟩
    simp [wordCount_nil]
  · -- truncation branch: the budget is consumed exactly
    have hws := splitWords_mem (rewriteText (fenceScan s.in_fence t).1)
    have hkws : ∀ w ∈ (splitWords (rewriteText (fenceScan s.in_fence t).1)).take
        s.word_budget.toNat, w ≠ [] ∧ ∀ c ∈ w, isSpaceChar c = false :=
      fun w hw => hws w (List.mem_of_mem_take hw)
    have hwc : wordCount (joinWords ((splitWords (rewriteText (fenceScan s.in_fence t).1)).take
        s.word_budget.toNat)) =
        ((splitWords (rewriteText (fenceScan s.in_fence t).1)).take
          s.word_budget.toNat).length := by
      have hj := splitWords_join _ [] hkws (Or.inl rfl)
      rw [List.append_nil] at hj
      rw [wordCount, hj]
    have hle : s.word_budget.toNat ≤
        (splitWords (rewriteText (fenceScan s.in_fence t).1)).length := by
      omega
    have hlen : ((splitWords (rewriteText (fenceScan s.in_fence t).1)).take
        s.word_budget.toNat).length = s.word_budget.toNat := by
      rw [List.length_take, Nat.min_eq_left hle]
    dsimp only
    rw [hwc, hlen]
    constructor
    · omega
    · omega
  · -- non-truncating branch
    have hws := splitWords_mem (rewriteText (fenceScan s.in_fence t).1)
    have hwc : wordCount (joinWords (splitWords (rewriteText (fenceScan s.in_fence t).1)) ++
        [' ']) = (splitWords (rewriteText (fenceScan s.in_fence t).1)).length :=
      by rw [wordCount, splitWords_join _ [' '] hws (Or.inr rfl)]
    dsimp only
    rw [hwc]
    constructor
    · omega
    · omega

/-- The budget invariant propagated along any fragment sequence. -/
lemma cleanAll_inv (frags : List (List Char)) :
    ∀ s : CleanerState, 0 ≤ s.word_budget →
    0 ≤ (cleanAll s frags).2.word_budget ∧
    (cleanAll s frags).2.word_budget +
      (((cleanAll s frags).1.map wordCount).sum : Int) = s.word_budget := by
  induction frags with
  | nil =>
    intro s hb
    refine ⟨hb, ?_⟩
    simp [cleanAll]
  | cons t ts ih =>
    intro s hb
    have h1 := clean_step s t hb
    have h2 := ih (clean s t).2 h1.1
    simp only [cleanAll, List.map_cons, List.sum_cons]
    push_cast
    push_cast at h1 h2
    obtain ⟨h1a, h1b⟩ := h1
    obtain ⟨h2a, h2b⟩ := h2
    constructor
    · exact h2a
    · omega

/-- C10: along every fragment sequence fed to a fresh cleaner, the budget
stays non-negative and, added to the total number of words contained in
all returned strings, always equals `MAX_WORDS_OUT`. -/
theorem c10_budget_accounting (frags : List (List Char)) :
    0 ≤ (cleanAll (initState MAX_WORDS_OUT) frags).2.word_budget ∧
    (cleanAll (initState MAX_WORDS_OUT) frags).2.word_budget +
      (((cleanAll (initState MAX_WORDS_OUT) frags).1.map wordCount).sum : Int) =
      MAX_WORDS_OUT :=
  cleanAll_inv frags (initState MAX_WORDS_OUT) (by norm_num [initState, MAX_WORDS_OUT])

lemma clean_of_done (s : CleanerState) (t : List Char) (hd : s.done = true) :
    clean s t = ([], s) := by
  simp [clean, hd]

lemma cleanAll_of_done (s : CleanerState) (ts : List (List Char)) (hd : s.done = true) :
    (∀ o ∈ (cleanAll s ts).1, o = []) ∧ (cleanAll s ts).2 = s := by
  induction ts with
  | nil => simp [cleanAll]
  | cons t ts ih =>
    simp only [cleanAll, clean_of_done s t hd]
    constructor
    · intro o ho
      rcases List.mem_cons.mp ho with h | h
      · exact h
      · exact ih.1 o h
    · exact ih.2

/-- C1: the cumulative number of whitespace-delimited words emitted across
any fragment sequence from a fresh cleaner never exceeds `MAX_WORDS_OUT`;
and once `done` is true, every subsequent call returns the empty string
(and leaves the state unchanged). -/
theorem c1_word_cap (frags : List (List Char)) :
    (((cleanAll (initState MAX_WORDS_OUT) frags).1.map wordCount).sum : Int) ≤
      MAX_WORDS_OUT ∧
    ∀ (s : CleanerState) (ts : List (List Char)), s.done = true →
      (∀ o ∈ (cleanAll s ts).1, o = []) ∧ (cleanAll s ts).2 = s := by
  constructor
  · have h := cleanAll_inv frags (initState MAX_WORDS_OUT)
      (by norm_num [initState, MAX_WORDS_OUT])
    have h1 := h.1
    have h2 := h.2
    rw [show (initState MAX_WORDS_OUT).word_budget = MAX_WORDS_OUT from rfl] at h2
    omega
  · intro s ts hd
    exact cleanAll_of_done s ts hd

/-- Witness for C1: a finished cleaner swallows a further fragment,
leaving its state untouched. -/
theorem c1_word_cap_witness :
    (cleanAll { in_fence := false, word_budget := 0, done := true }
        [("more input".toList)]).2 =
      { in_fence := false, word_budget := 0, done := true } :=
  ((c1_word_cap []).2 { in_fence := false, word_budget := 0, done := true }
      [("more input".toList)] rfl).2

/-! ## C5: trailing-space rule -/

lemma joinWords_ne_nil (ws : List (List Char)) (hne : ws ≠ [])
    (h : ∀ w ∈ ws, w ≠ []) : joinWords ws ≠ [] := by
  cases ws with
  | nil => exact absurd rfl hne
  | cons w ws' =>
    cases ws' with
    | nil => exact h w (List.mem_cons_self w [])
    | cons w2 ws'' =>
      rw [joinWords_cons_cons]
      simp

lemma joinWords_getLast?_not_space (ws : List (List Char))
    (hws : ∀ w ∈ ws, w ≠ [] ∧ ∀ c ∈ w, isSpaceChar c = false) :
    ∀ x : Char, (joinWords ws).getLast? = some x → isSpaceChar x = false := by
  induction ws with
  | nil => intro x hx; simp [joinWords] at hx
  | cons w ws' ih =>
    intro x hx
    cases ws' with
    | nil =>
      rw [joinWords_singleton] at hx
      have hmem : x ∈ w := by
        have : x ∈ w.getLast? := by simp [hx]
        obtain ⟨hne, rfl⟩ := List.mem_getLast?_eq_getLast this
        exact List.getLast_mem hne
      exact (hws w (List.mem_cons_self w [])).2 x hmem
    | cons w2 ws'' =>
      rw [joinWords_cons_cons] at hx
      have hj : joinWords (w2 :: ws'') ≠ [] :=
        joinWords_ne_nil _ (by simp)
          (fun u hu => (hws u (List.mem_cons_of_mem w hu)).1)
      have hx' : (joinWords (w2 :: ws'')).getLast? = some x := by
        rw [List.getLast?_append_of_ne_nil _ (by simp : ' ' :: joinWords (w2 :: ws'') ≠ [])] at hx
        cases hjw : joinWords (w2 :: ws'') with
        | nil => exact absurd hjw hj
        | cons y j' =>
          rw [hjw, List.getLast?_cons_cons] at hx
          exact hx
      exact ih (fun u hu => hws u (List.mem_cons_of_mem w hu)) x hx'

/-- C5 (amended): whenever `clean` returns a non-empty string, that string
ends in exactly one trailing space if this call did not truncate (`done`
remains false) — including the case where the kept words exactly consume
the remaining budget — and ends in a non-space character if this call
truncated the word list (`done` set because the split words strictly
exceeded the budget). -/
theorem c5_amended_trailing_space (s : CleanerState) (t : List Char)
    (h : (clean s t).1 ≠ []) :
    ((clean s t).2.done = false →
      (clean s t).1.getLast? = some ' ' ∧
      (clean s t).1.dropLast.getLast? ≠ some ' ') ∧
    ((clean s t).2.done = true → (clean s t).1.getLast? ≠ some ' ') := by
  unfold clean at h ⊢
  dsimp only at h ⊢
  split_ifs at h ⊢ with h1 h2 h3 h4
  · exact absurd rfl h
  · exact absurd rfl h
  · exact absurd rfl h
  · -- truncation: output is joinWords of the kept words, done is set
    dsimp only
    constructor
    · intro hc
      simp at hc
    · intro _ hlast
      have hkws : ∀ w ∈ (splitWords (rewriteText (fenceScan s.in_fence t).1)).take
          s.word_budget.toNat, w ≠ [] ∧ ∀ c ∈ w, isSpaceChar c = false :=
        fun w hw => splitWords_mem _ w (List.mem_of_mem_take hw)
      have := joinWords_getLast?_not_space _ hkws ' ' hlast
      exact absurd this (by decide)
  · -- no truncation: a single trailing space is appended
    dsimp only
    constructor
    · intro _
      constructor
      · exact List.getLast?_concat _
      · rw [List.dropLast_concat]
        intro hlast
        have := joinWords_getLast?_not_space _
          (splitWords_mem (rewriteText (fenceScan s.in_fence t).1)) ' ' hlast
        exact absurd this (by decide)
    · intro hc
      simp at hc

/-- Witness for C5 (amended): a fragment that does not exhaust the budget
gets its trailing space. -/
theorem c5_amended_trailing_space_witness :
    (clean (initState 5) ("hi".toList)).1.getLast? = some ' ' :=
  ((c5_amended_trailing_space (initState 5) ("hi".toList) (by decide)).1 (by decide)).1

/-! ## C2: fence suppression, within and across fragments -/

/-- `clean` is congruent in the fence-scan result: two non-empty fragments
whose scans agree from the current fence state produce the same output and
the same successor state (everything after the scan depends only on the
scan's result). -/
lemma clean_congr_scan (s : CleanerState) (t t' : List Char) (ht : t ≠ []) (ht' : t' ≠ [])
    (h : fenceScan s.in_fence t = fenceScan s.in_fence t') : clean s t = clean s t' := by
  by_cases hd : s.done = true
  · rw [clean_of_done s t hd, clean_of_done s t' hd]
  · simp only [clean, ht, ht', hd, false_or, if_false, h]

/-- On a non-empty fragment from a live state, the successor `in_fence`
flag is the scan's final flag, in every budget branch. -/
lemma clean_in_fence (s : CleanerState) (t : List Char) (ht : t ≠ []) (hd : s.done = false) :
    (clean s t).2.in_fence = (fenceScan s.in_fence t).2 := by
  unfold clean
  rw [if_neg (by simp [ht, hd])]
  dsimp only
  split_ifs <;> rfl

/-- Three-fragment runs whose per-call results agree step by step are
equal as a whole. -/
lemma cleanAll_congr3 (s : CleanerState) (t1 t1' t2 t2' t3 t3' : List Char)
    (e1 : clean s t1 = clean s t1')
    (e2 : clean (clean s t1).2 t2 = clean (clean s t1).2 t2')
    (e3 : clean (clean (clean s t1).2 t2).2 t3 = clean (clean (clean s t1).2 t2).2 t3') :
    cleanAll s [t1, t2, t3] = cleanAll s [t1', t2', t3'] := by
  simp only [cleanAll]
  rw [← e1, ← e2, ← e3]

/-- C2: fence suppression, within and across fragments (all fenced text
subject to the well-formedness of the claim: each marker wholly inside
one fragment, fenced text containing no marker, boundaries not ending in
a backquote).  (i) Within one fragment, for a pair of fence tokens the
scan keeps the text before the opening token, drops every fenced
character and both 3-character markers, and continues with the text after
the closing token.  (ii) An opening fragment `a ++ tok ++ b` emits
exactly `a` and leaves the flag set: the tail after the open token is
suppressed.  (iii) A whole fragment delivered to `clean` while `in_fence`
is true (the flag is carried across calls) contributes nothing to the
returned string and keeps the flag set.  (iv) A closing fragment
`b ++ tok ++ c` scanned with the flag set drops its head before the close
token and the marker, and scans `c` outside the fence.  (v) At the
`cleanAll` level, the complete observable behaviour of a three-fragment
cross-fence run — every returned string and the final state — is
independent of all the fenced characters (the opening fragment's tail,
the wholly fenced middle fragment, and the closing fragment's head), so
no character lying between the open token and its matching close token,
and no marker character, is ever present in any returned string. -/
theorem c2_fence_suppression :
    (∀ a b c : List Char,
        containsFence a = false → a.getLast? ≠ some fenceChar →
        containsFence b = false → b.getLast? ≠ some fenceChar →
        fenceScan false (a ++ (fenceTok ++ (b ++ (fenceTok ++ c)))) =
          (a ++ (fenceScan false c).1, (fenceScan false c).2)) ∧
    (∀ a b₁ : List Char,
        containsFence a = false → a.getLast? ≠ some fenceChar →
        containsFence b₁ = false →
        fenceScan false (a ++ (fenceTok ++ b₁)) = (a, true)) ∧
    (∀ (s : CleanerState) (b : List Char),
        s.in_fence = true → containsFence b = false →
        (clean s b).1 = [] ∧ (clean s b).2.in_fence = true) ∧
    (∀ b₃ c : List Char,
        containsFence b₃ = false → b₃.getLast? ≠ some fenceChar →
        fenceScan true (b₃ ++ (fenceTok ++ c)) = fenceScan false c) ∧
    (∀ (s : CleanerState) (a b₁ b₂ b₃ c b₁' b₂' b₃' : List Char),
        s.in_fence = false → s.done = false →
        containsFence a = false → a.getLast? ≠ some fenceChar →
        containsFence b₁ = false → containsFence b₂ = false → b₂ ≠ [] →
        containsFence b₃ = false → b₃.getLast? ≠ some fenceChar →
        containsFence b₁' = false → containsFence b₂' = false → b₂' ≠ [] →
        containsFence b₃' = false → b₃'.getLast? ≠ some fenceChar →
        cleanAll s [a ++ (fenceTok ++ b₁), b₂, b₃ ++ (fenceTok ++ c)] =
          cleanAll s [a ++ (fenceTok ++ b₁'), b₂', b₃' ++ (fenceTok ++ c)]) := by
  refine ⟨?_, ?_, ?_, ?_, ?_⟩
  · intro a b c ha1 ha2 hb1 hb2
    rw [fenceScan_outside_keep a _ ha1 ha2, fenceScan_tok, Bool.not_false,
        fenceScan_inFence_append b _ hb1 hb2, fenceScan_tok, Bool.not_true]
  · intro a b₁ ha1 ha2 hb1
    exact fenceScan_open_frag a b₁ ha1 ha2 hb1
  · intro s b hf hb
    exact clean_mid_fence s b hf hb
  · intro b₃ c hb3 hg
    exact fenceScan_close_frag b₃ c hb3 hg
  · intro s a b₁ b₂ b₃ c b₁' b₂' b₃' hf hd ha1 ha2 hb1 hb2 hb2ne hb3 hb3g
      hb1' hb2' hb2ne' hb3' hb3g'
    have hf1ne : a ++ (fenceTok ++ b₁) ≠ [] := by simp [fenceTok]
    have hf1ne' : a ++ (fenceTok ++ b₁') ≠ [] := by simp [fenceTok]
    have hscan1 : fenceScan s.in_fence (a ++ (fenceTok ++ b₁)) = (a, true) := by
      rw [hf]
      exact fenceScan_open_frag a b₁ ha1 ha2 hb1
    have hscan1' : fenceScan s.in_fence (a ++ (fenceTok ++ b₁')) = (a, true) := by
      rw [hf]
      exact fenceScan_open_frag a b₁' ha1 ha2 hb1'
    have e1 : clean s (a ++ (fenceTok ++ b₁)) = clean s (a ++ (fenceTok ++ b₁')) :=
      clean_congr_scan s _ _ hf1ne hf1ne' (by rw [hscan1, hscan1'])
    have hs2f : (clean s (a ++ (fenceTok ++ b₁))).2.in_fence = true := by
      rw [clean_in_fence s _ hf1ne hd, hscan1]
    have e2 : clean (clean s (a ++ (fenceTok ++ b₁))).2 b₂ =
        clean (clean s (a ++ (fenceTok ++ b₁))).2 b₂' :=
      clean_congr_scan _ _ _ hb2ne hb2ne'
        (by rw [hs2f, fenceScan_inFence_noTok b₂ hb2, fenceScan_inFence_noTok b₂' hb2'])
    have hs3f : (clean (clean s (a ++ (fenceTok ++ b₁))).2 b₂).2.in_fence = true := by
      by_cases hd2 : (clean s (a ++ (fenceTok ++ b₁))).2.done = true
      · rw [clean_of_done _ _ hd2]
        exact hs2f
      · rw [clean_in_fence (clean s (a ++ (fenceTok ++ b₁))).2 b₂ hb2ne
            (by simpa using hd2), hs2f, fenceScan_inFence_noTok b₂ hb2]
    have hf3ne : b₃ ++ (fenceTok ++ c) ≠ [] := by simp [fenceTok]
    have hf3ne' : b₃' ++ (fenceTok ++ c) ≠ [] := by simp [fenceTok]
    have e3 : clean (clean (clean s (a ++ (fenceTok ++ b₁))).2 b₂).2
          (b₃ ++ (fenceTok ++ c)) =
        clean (clean (clean s (a ++ (fenceTok ++ b₁))).2 b₂).2
          (b₃' ++ (fenceTok ++ c)) :=
      clean_congr_scan _ _ _ hf3ne hf3ne'
        (by rw [hs3f, fenceScan_close_frag b₃ c hb3 hb3g,
                fenceScan_close_frag b₃' c hb3' hb3g'])
    exact cleanAll_congr3 s _ _ _ _ _ _ e1 e2 e3

/-- Witness for C2: the same-fragment suppression, an opening-fragment
scan, and a full three-fragment cross-fence run whose outputs and final
state are unchanged when every fenced character is replaced. -/
theorem c2_fence_suppression_witness :
    (fenceScan false
        (['x'] ++ (fenceTok ++ (("hidden".toList) ++ (fenceTok ++ ['y'])))) =
      (['x'] ++ (fenceScan false ['y']).1, (fenceScan false ['y']).2)) ∧
    (fenceScan false (("ab ".toList) ++ (fenceTok ++ ("secret".toList))) =
      ("ab ".toList, true)) ∧
    (cleanAll (initState 500)
        [("ab ".toList) ++ (fenceTok ++ ("one".toList)), "two".toList,
         ("three".toList) ++ (fenceTok ++ (" cd".toList))] =
      cleanAll (initState 500)
        [("ab ".toList) ++ (fenceTok ++ ("ONE!".toList)), "TWO!".toList,
         ("THREE!".toList) ++ (fenceTok ++ (" cd".toList))]) :=
  ⟨c2_fence_suppression.1 ['x'] ("hidden".toList) ['y']
      (by decide) (by decide) (by decide) (by decide),
   c2_fence_suppression.2.1 ("ab ".toList) ("secret".toList)
      (by decide) (by decide) (by decide),
   c2_fence_suppression.2.2.2.2 (initState 500) ("ab ".toList) ("one".toList)
      ("two".toList) ("three".toList) (" cd".toList) ("ONE!".toList)
      ("TWO!".toList) ("THREE!".toList) rfl rfl (by decide) (by decide)
      (by decide) (by decide) (by decide) (by decide) (by decide) (by decide)
      (by decide) (by decide) (by decide) (by decide)⟩
